import Mathlib

/-!
Shallow embedding of the trace/arrangement core of the differential-dataflow
repository (trace consolidation, batch identifiers, the lookup sweep, the
trace writer/agent broker, capability recomputation, and the freeze wrapper),
together with theorems settling the specification claims about it.

Conventions of the embedding:
* machine integers (`usize`) become `Nat`; diff types become an additive
  commutative monoid (the source's `Diff` bound provides `+`, `zero` and
  `is_zero`, which is all the consolidation code uses);
* in-place vector mutation becomes explicit list transformation mirroring the
  loop structure of the source;
* fallible operations (`panic!`, `expect`) become `Option`, with `none`
  marking the fatal abort;
* Rust `String` values become `List Char`.
-/

namespace DD

/-- Embeds the adjacent-accumulation loop of `consolidate_by`
(src/src/trace/mod.rs lines 838-843):
`for index in (off+1)..len { if vec[index].0 == vec[index-1].0 {
vec[index].1 = vec[index].1 + vec[index-1].1; vec[index-1].1 = R::zero(); } }`.
The carried pair is the current value at position `index - 1`; the list holds
the positions from `index` on. When the keys agree the earlier slot is zeroed
and the later slot receives the sum, exactly as in the source. -/
def fold_adjacent {α R : Type} [DecidableEq α] [AddCommMonoid R] :
    (α × R) → List (α × R) → List (α × R)
  | p, [] => [p]
  | (a, r), (b, s) :: rest =>
    if b = a then (a, 0) :: fold_adjacent (b, s + r) rest
    else (a, r) :: fold_adjacent (b, s) rest

/-- The accumulation loop applied to a whole list (the sorted suffix). -/
def fold_adj {α R : Type} [DecidableEq α] [AddCommMonoid R] :
    List (α × R) → List (α × R)
  | [] => []
  | p :: rest => fold_adjacent p rest

/-- The ordering on pairs induced by a comparator on the first components:
`vec[off..].sort_by(|x,y| cmp(&x.0, &y.0))` sorts ascending by `cmp` on the
item components, i.e. by `(cmp x.0 y.0).isLE`. -/
def leCmp {α : Type} (R : Type) (cmp : α → α → Ordering) : α × R → α × R → Prop :=
  fun p q => (cmp p.1 q.1).isLE = true

instance leCmpDecidable {α : Type} (R : Type) (cmp : α → α → Ordering) :
    DecidableRel (leCmp R cmp) :=
  fun p q => inferInstanceAs (Decidable ((cmp p.1 q.1).isLE = true))

/-- Embeds `consolidate_by` (src/src/trace/mod.rs lines 836-853): sort the
suffix `vec[off..]` by `cmp` on item identity (the source uses a stable slice
sort; `List.insertionSort` is stable), accumulate diffs of adjacent equal
items, then compact the entries with non-zero diff to the front in order and
truncate.  The prefix `vec[..off]` is untouched by every step of the source
loop (the sort acts on `vec[off..]`, the accumulation starts at `off + 1`, the
compaction cursor starts at `off`, and the final truncation is to a length of
at least `off`). -/
def consolidate_by {α R : Type} [DecidableEq α] [AddCommMonoid R] [DecidableEq R]
    (cmp : α → α → Ordering) (vec : List (α × R)) (off : Nat) : List (α × R) :=
  vec.take off ++
    (fold_adj (List.insertionSort (leCmp R cmp) (vec.drop off))).filter
      (fun p => decide (¬ p.2 = 0))

/-- Embeds `consolidate` (src/src/trace/mod.rs lines 830-832):
`consolidate_by(vec, off, |x,y| x.cmp(&y))`. -/
def consolidate {α R : Type} [LinearOrder α] [AddCommMonoid R] [DecidableEq R]
    (vec : List (α × R)) (off : Nat) : List (α × R) :=
  consolidate_by compare vec off

/-- The total diff a given item accumulates in a list of updates:
the sum of the second components of the entries whose item equals `a`. -/
def sumKey {α R : Type} [DecidableEq α] [AddCommMonoid R]
    (l : List (α × R)) (a : α) : R :=
  ((l.filter (fun p => decide (p.1 = a))).map Prod.snd).sum

instance leCmpCompareTotal {α R : Type} [LinearOrder α] :
    IsTotal (α × R) (leCmp R compare) :=
  ⟨fun p q => by
    unfold leCmp
    rcases le_total p.1 q.1 with h | h
    · left
      rw [← compare_le_iff_le] at h
      cases hc : compare p.1 q.1 <;> simp_all [Ordering.isLE]
    · right
      rw [← compare_le_iff_le] at h
      cases hc : compare q.1 p.1 <;> simp_all [Ordering.isLE]⟩

instance leCmpCompareTrans {α R : Type} [LinearOrder α] :
    IsTrans (α × R) (leCmp R compare) :=
  ⟨fun p q w h1 h2 => by
    have e : ∀ a b : α, (compare a b).isLE = true ↔ a ≤ b := by
      intro a b
      rw [← compare_le_iff_le]
      cases compare a b <;> simp [Ordering.isLE]
    exact (e p.1 w.1).mpr (le_trans ((e p.1 q.1).mp h1) ((e q.1 w.1).mp h2))⟩

/-- The decimal digit character for a digit value below ten. -/
def digitChar : Nat → Char
  | 0 => '0'
  | 1 => '1'
  | 2 => '2'
  | 3 => '3'
  | 4 => '4'
  | 5 => '5'
  | 6 => '6'
  | 7 => '7'
  | 8 => '8'
  | _ => '9'

/-- Numeric value of a decimal digit character. -/
def charVal (c : Char) : Nat := c.toNat - 48

/-- Whether a character is a decimal digit (code points 48 to 57). -/
def isDigitChar (c : Char) : Bool := decide (48 ≤ c.toNat) && decide (c.toNat ≤ 57)

/-- Decimal rendering of a natural number, fuel-indexed so the recursion on
`n / 10` is structural; `natDigits` supplies sufficient fuel.  Embeds
`usize::to_string` as used by `BatchIdentifier::to_string`
(src/src/trace/mod.rs lines 167-171). -/
def natDigitsAux : Nat → Nat → List Char
  | 0, _ => []
  | fuel + 1, n =>
    if n < 10 then [digitChar n]
    else natDigitsAux fuel (n / 10) ++ [digitChar (n % 10)]

/-- Decimal rendering of a natural number. -/
def natDigits (n : Nat) : List Char := natDigitsAux (n + 1) n

/-- Value of a decimal digit string, most significant digit first. -/
def digitsVal (cs : List Char) : Nat := cs.foldl (fun acc c => 10 * acc + charVal c) 0

/-- Embeds `str::parse::<usize>()` as used by `BatchIdentifier::from_string`:
the parse fails (`Err`, surfaced by `expect` as a panic) on the empty string
and on any non-digit character, and otherwise yields the decimal value. -/
def parseNat (cs : List Char) : Option Nat :=
  if cs.isEmpty then none
  else if cs.all isDigitChar then some (digitsVal cs) else none

/-- Embeds Rust `str::split('.')` on a character-list string: splitting the
empty string yields one empty piece, and every separator starts a new piece. -/
def splitOnDot : List Char → List (List Char)
  | [] => [[]]
  | c :: rest =>
    if c = '.' then [] :: splitOnDot rest
    else
      match splitOnDot rest with
      | [] => [[c]]
      | p :: ps => (c :: p) :: ps

/-- Embeds `Vec<String>::join(".")`. -/
def joinDot : List (List Char) → List Char
  | [] => []
  | [p] => p
  | p :: ps => p ++ '.' :: joinDot ps

/-- Embeds `BatchIdentifier` (src/src/trace/mod.rs lines 150-155): an operator
address path plus a trace id. -/
structure BatchIdentifier where
  address : List Nat
  trace_id : Nat
deriving DecidableEq

/-- Embeds `BatchIdentifier::to_string` (src/src/trace/mod.rs lines 167-171):
`format!("{}.{}", address joined with '.', trace_id)`.  Note the dot between
the joined address and the trace id is emitted even for an empty address. -/
def BatchIdentifier.to_string (b : BatchIdentifier) : List Char :=
  joinDot (b.address.map natDigits) ++ '.' :: natDigits b.trace_id

/-- Parses every piece of a list of strings, failing (panicking in the
source) if any single parse fails; the address-collection loop of
`BatchIdentifier::from_string`. -/
def parseAll : List (List Char) → Option (List Nat)
  | [] => some []
  | cs :: rest =>
    match parseNat cs with
    | none => none
    | some n => (parseAll rest).map (fun ns => n :: ns)

/-- Embeds `BatchIdentifier::from_string` (src/src/trace/mod.rs lines 174-185):
split on '.', pop the last piece and parse it as the trace id, parse the
remaining pieces as the address; every `expect` panic becomes `none`. -/
def BatchIdentifier.from_string (input : List Char) : Option BatchIdentifier :=
  match (splitOnDot input).getLast? with
  | none => none
  | some last =>
    match parseNat last with
    | none => none
    | some tid =>
      match parseAll (splitOnDot input).dropLast with
      | none => none
      | some addr => some ⟨addr, tid⟩

/-- Embeds the per-key sweep of `Arranged::lookup` (src/src/operators/arrange.rs
lines 527-571).  The first argument is the time-sorted list `working` of
`(time, val, diff)` triples gathered for the current key; the second is the
list of query times for this key (`active`, projected to times); the third is
the accumulation buffer `working2` as received.  Each update first releases
every pending query whose time is strictly before the update's time —
consolidating `working2` in place and emitting one `(val, query_time, count)`
row per surviving entry — and is then pushed onto `working2`; when the updates
are exhausted the remaining queries all receive the final consolidated
accumulation.  The buffer is only ever consolidated and pushed to, never
cleared or drained (unlike `working`, which is drained, and `active`, which is
cleared), so its final state — returned as the second component — is what the
next key group, and the next scheduler invocation, receives. -/
def sweep {T V R : Type} [LinearOrder T] [LinearOrder V] [AddCommMonoid R] [DecidableEq R] :
    List (T × V × R) → List T → List (V × R) → List (V × T × R) × List (V × R)
  | [], qs, w2 =>
    if qs.isEmpty then ([], w2)
    else
      (qs.flatMap (fun qt => (consolidate w2 0).map (fun p => (p.1, qt, p.2))),
       consolidate w2 0)
  | (t, v, d) :: rest, qs, w2 =>
    if (qs.takeWhile (fun qt => decide (qt < t))).isEmpty then
      sweep rest qs (w2 ++ [(v, d)])
    else
      let r := sweep rest (qs.dropWhile (fun qt => decide (qt < t)))
        (consolidate w2 0 ++ [(v, d)])
      (((qs.takeWhile (fun qt => decide (qt < t))).flatMap
          (fun qt => (consolidate w2 0).map (fun p => (p.1, qt, p.2)))) ++ r.1,
       r.2)

/-- One key group's processing in one scheduling step of the lookup operator:
the trace triples gathered for the key are sorted by time
(`working.sort_by(|x,y| x.0.cmp(&y.0))`, a stable sort modelled by the stable
`List.insertionSort`) and swept against the key's query times with the
operator's current `working2` buffer; returns the emitted rows and the buffer
as the operator leaves it.  The buffer is initialized empty exactly once, at
operator construction (`let mut working2 = Vec::new()`, line 471 of
src/src/operators/arrange.rs); each later key group and each later scheduling
step receives whatever the previous sweep left in it. -/
def lookup_step {T V R : Type} [LinearOrder T] [LinearOrder V] [AddCommMonoid R] [DecidableEq R]
    (updates : List (T × V × R)) (queries : List T) (w2 : List (V × R)) :
    List (V × T × R) × List (V × R) :=
  sweep (List.insertionSort (leCmp (V × R) compare) updates) queries w2

/-- A batch reduced to its description frontiers: all the trace-side claims
depend only on `lower`/`upper` (src/src/trace/mod.rs lines 220-223). -/
structure BatchM (T : Type) where
  lower : List T
  upper : List T
deriving DecidableEq

/-- Modelled from the spec: the concrete `Trace` implementations (the spine in
`trace/implementations`) are not under src/.  Following §3 and §4.2 of the
spec, a trace is an append-only sequence of batches covering
`[minimum, upper_of_last_batch)`; `init` is the frontier the empty trace
starts from (the minimum frontier). -/
structure TraceModel (T : Type) where
  init : List T
  batches : List (BatchM T)
deriving DecidableEq

/-- The trace's current upper frontier: the upper bound of the most recently
inserted batch, or the initial frontier for an empty trace. -/
def TraceModel.upper {T : Type} (tr : TraceModel T) : List T :=
  match tr.batches.getLast? with
  | some b => b.upper
  | none => tr.init

/-- Modelled from the spec: `Trace::insert` (§4.2: "insert(batch): requires
`batch.lower() == self.upper()`; fails (fatal invariant violation)
otherwise"); the implementing spine is not under src/.  The fatal failure is
`none`. -/
def TraceModel.insert {T : Type} [DecidableEq T] (tr : TraceModel T) (b : BatchM T) :
    Option (TraceModel T) :=
  if b.lower = tr.upper then some { tr with batches := tr.batches ++ [b] } else none

/-- Modelled from the spec: `Trace::close` (§4.2: equivalent to inserting an
empty batch whose lower frontier is the current upper frontier and whose
upper frontier is empty); the implementing spine is not under src/. -/
def TraceModel.close {T : Type} (tr : TraceModel T) : TraceModel T :=
  { tr with batches := tr.batches ++ [⟨tr.upper, []⟩] }

/-- Sequential insertion of a list of batches, propagating the fatal failure
of any single insertion. -/
def TraceModel.insertAll {T : Type} [DecidableEq T] (tr : TraceModel T) :
    List (BatchM T) → Option (TraceModel T)
  | [] => some tr
  | b :: bs =>
    match tr.insert b with
    | some tr2 => tr2.insertAll bs
    | none => none

/-- An event published to a listener queue: a frontier plus optional batch
data, `(Vec<T>, Option<(T, Batch)>)` in src/src/operators/arrange.rs line 53. -/
abbrev Event (T : Type) := List T × Option (T × BatchM T)

/-- The writer-side state of `TraceWriter` (src/src/operators/arrange.rs lines
49-54): the shared queue registry (a frontier plus the listener queues, where
`none` models a dead `Weak` reference) and the weak trace reference (`none`
models a dropped trace). -/
structure WriterModel (T : Type) where
  queuesFrontier : List T
  queues : List (Option (List (Event T)))
  trace : Option (TraceModel T)

/-- Embeds `TraceWriter::seal` (src/src/operators/arrange.rs lines 60-87):
record the frontier, push `(frontier, data)` onto every live listener queue,
retain only the live queue references, and on the trace side insert the batch
if data is present, close the trace if the frontier is empty, and otherwise
leave the trace unchanged.  The modelled `Trace::insert` can fail fatally,
which surfaces as `none`. -/
def WriterModel.seal {T : Type} [DecidableEq T] (w : WriterModel T) (frontier : List T)
    (data : Option (T × BatchM T)) : Option (WriterModel T) :=
  let queues2 := (w.queues.map (fun q => q.map (fun evts => evts ++ [(frontier, data)]))).filter
    (fun q => q.isSome)
  match w.trace with
  | none => some { queuesFrontier := frontier, queues := queues2, trace := none }
  | some tr =>
    match data with
    | some (_t, b) =>
      (tr.insert b).map (fun tr2 => { queuesFrontier := frontier, queues := queues2, trace := some tr2 })
    | none =>
      if frontier.isEmpty then
        some { queuesFrontier := frontier, queues := queues2, trace := some tr.close }
      else
        some { queuesFrontier := frontier, queues := queues2, trace := some tr }

/-- Embeds `TraceAgent::new_listener` (src/src/operators/arrange.rs lines
176-200).  The trace's current batches are enumerated in order via
`map_batches` and pushed as events tagged with `T::default()` (the minimum
time), here the explicit parameter `t0`.  If the writer-side queue registry is
still alive (`some`), the current queues-frontier is pushed as a progress
event and the new queue is registered; if the registry is gone (the trace is
closed), a terminal marker `([], none)` is pushed instead.  Returns the new
queue and the updated registry. -/
def TraceAgent.new_listener {T : Type} (tr : TraceModel T)
    (queues : Option (List T × List (List (Event T)))) (t0 : T) :
    List (Event T) × Option (List T × List (List (Event T))) :=
  let backlog : List (Event T) := tr.batches.map (fun b => ([t0], some (t0, b)))
  match queues with
  | some (f, qs) =>
    let q := backlog ++ [(f, none)]
    (q, some (f, qs ++ [q]))
  | none => (backlog ++ [([], none)], none)

/-- Embeds the capability recomputation loop of `arrange_named`
(src/src/operators/arrange.rs lines 797-807): for every time of the batcher's
new frontier, find a held capability whose time is less or equal to it and
downgrade it to that time (`cap.delayed(time)`); if no held capability covers
the time, panic (`none`).  Capabilities are modelled by their times. -/
def recompute_capabilities {T : Type} [Preorder T] [DecidableRel (fun a b : T => a ≤ b)]
    (capabilities : List T) : List T → Option (List T)
  | [] => some []
  | time :: rest =>
    match capabilities.find? (fun c => decide (c ≤ time)) with
    | some _cap => (recompute_capabilities capabilities rest).map (fun caps => time :: caps)
    | none => none

/-- Embeds one event of the import source of `TraceAgent::import`
(src/src/operators/arrange.rs lines 276-299): if batch data is present, find a
capability no later than the batch's time and emit the batch at that time
(panicking — `none` — if none covers it); then recompute the capability set to
match the event's frontier, again panicking if some frontier element is not
covered.  Returns the emitted `(time, batch)` list and the new capabilities. -/
def source_step {T : Type} [Preorder T] [DecidableRel (fun a b : T => a ≤ b)]
    (capabilities : List T) (frontier : List T) (sent : Option (T × BatchM T)) :
    Option (List (T × BatchM T) × List T) :=
  match sent with
  | some (time, batch) =>
    match capabilities.find? (fun c => decide (c ≤ time)) with
    | some _cap =>
      (recompute_capabilities capabilities frontier).map (fun caps => ([(time, batch)], caps))
    | none => none
  | none => (recompute_capabilities capabilities frontier).map (fun caps => ([], caps))

/-- The reader-side frontier state of a `TraceAgent`
(src/src/operators/arrange.rs line 118). -/
structure AgentFrontiers (T : Type) where
  advance : List T

/-- Embeds `TraceAgent::advance_by` (src/src/operators/arrange.rs lines
126-130): the agent adjusts the trace's aggregate hold from its old frontier
to the new one, then clears its `advance` field and stores a copy of
`frontier`; no monotonicity check is performed. -/
def TraceAgent.advance_by {T : Type} (a : AgentFrontiers T) (frontier : List T) :
    AgentFrontiers T :=
  { a with advance := frontier }

/-- Embeds `TraceAgent::advance_frontier` (src/src/operators/arrange.rs lines
131-133): returns the stored `advance` field. -/
def TraceAgent.advance_frontier {T : Type} (a : AgentFrontiers T) : List T :=
  a.advance

/-- A sequence of `advance_by` calls applied in order. -/
def run_advances {T : Type} (a : AgentFrontiers T) (fs : List (List T)) : AgentFrontiers T :=
  fs.foldl TraceAgent.advance_by a

/-- Frontier domination: every time of `g` is greater or equal to some element
of `f` (the non-regression order on reported frontiers). -/
def dominates {T : Type} [LE T] (g f : List T) : Prop :=
  ∀ t ∈ g, ∃ s ∈ f, s ≤ t

/-- The caller contract of `advance_by` (§4.2: "caller-declared …; monotonic
non-decreasing per caller"): each call's frontier dominates the frontier held
just before the call. -/
def monotoneCalls {T : Type} [LE T] (a : AgentFrontiers T) : List (List T) → Prop
  | [] => True
  | f :: rest => dominates f a.advance ∧ monotoneCalls (TraceAgent.advance_by a f) rest

/-- A two-level cursor positioned at one `(key, val)` pair, reduced to the
data the freeze claims observe: the key, the value, and the `(time, diff)`
pairs `map_times` visits for that pair. -/
structure CursorM (K V T R : Type) where
  key : K
  val : V
  times : List (T × R)

/-- Runs a `map_times` visit over a list of `(time, diff)` pairs, threading a
state through the callback (the callback's side effects in the source). -/
def run_map_times {T R σ : Type} (times : List (T × R)) (logic : T → R → σ → σ) (st : σ) : σ :=
  times.foldl (fun st p => logic p.1 p.2 st) st

/-- Embeds `CursorFreeze` (src/src/trace/wrappers/freeze.rs lines 185-199):
the wrapped cursor plus the caller-supplied time filter. -/
structure CursorFreeze (K V T R : Type) where
  cursor : CursorM K V T R
  func : T → Option T

/-- Embeds `CursorFreeze::key`: delegates to the wrapped cursor. -/
def CursorFreeze.key {K V T R : Type} (c : CursorFreeze K V T R) : K := c.cursor.key

/-- Embeds `CursorFreeze::val`: delegates to the wrapped cursor. -/
def CursorFreeze.val {K V T R : Type} (c : CursorFreeze K V T R) : V := c.cursor.val

/-- Embeds `CursorFreeze::map_times` (src/src/trace/wrappers/freeze.rs lines
215-222): visit the wrapped cursor's `(time, diff)` pairs, and for each pair
invoke the callback at `func(time)` when that is `Some`, skipping the pair
entirely when it is `None`. -/
def CursorFreeze.map_times {K V T R σ : Type} (c : CursorFreeze K V T R)
    (logic : T → R → σ → σ) (st : σ) : σ :=
  run_map_times c.cursor.times
    (fun time diff st =>
      match c.func time with
      | some time2 => logic time2 diff st
      | none => st) st

/-- Embeds `BatchCursorFreeze` (src/src/trace/wrappers/freeze.rs lines
236-250): the wrapped batch cursor plus the time filter. -/
structure BatchCursorFreeze (K V T R : Type) where
  cursor : CursorM K V T R
  func : T → Option T

/-- Embeds `BatchCursorFreeze::key`: delegates to the wrapped cursor. -/
def BatchCursorFreeze.key {K V T R : Type} (c : BatchCursorFreeze K V T R) : K := c.cursor.key

/-- Embeds `BatchCursorFreeze::val`: delegates to the wrapped cursor. -/
def BatchCursorFreeze.val {K V T R : Type} (c : BatchCursorFreeze K V T R) : V := c.cursor.val

/-- Embeds `BatchCursorFreeze::map_times` (src/src/trace/wrappers/freeze.rs
lines 265-272): identical logic to `CursorFreeze::map_times`. -/
def BatchCursorFreeze.map_times {K V T R σ : Type} (c : BatchCursorFreeze K V T R)
    (logic : T → R → σ → σ) (st : σ) : σ :=
  run_map_times c.cursor.times
    (fun time diff st =>
      match c.func time with
      | some time2 => logic time2 diff st
      | none => st) st

end DD

/-! ## Theorems -/

namespace DD

theorem compare_isLE_iff {α : Type} [LinearOrder α] {a b : α} :
    (compare a b).isLE = true ↔ a ≤ b := by
  rw [← compare_le_iff_le]
  cases compare a b <;> simp [Ordering.isLE]

theorem fold_adjacent_keys {α R : Type} [DecidableEq α] [AddCommMonoid R]
    (p : α × R) (l : List (α × R)) :
    (fold_adjacent p l).map Prod.fst = p.1 :: l.map Prod.fst := by
  induction l generalizing p with
  | nil => rfl
  | cons hd tl ih =>
    obtain ⟨a, r⟩ := p
    obtain ⟨b, s⟩ := hd
    by_cases h : b = a
    · simp [fold_adjacent, h, ih]
    · simp [fold_adjacent, h, ih]

theorem sumKey_nil {α R : Type} [DecidableEq α] [AddCommMonoid R] (a : α) :
    sumKey ([] : List (α × R)) a = 0 := rfl

theorem sumKey_cons {α R : Type} [DecidableEq α] [AddCommMonoid R]
    (p : α × R) (l : List (α × R)) (x : α) :
    sumKey (p :: l) x = (if p.1 = x then p.2 else 0) + sumKey l x := by
  by_cases h : p.1 = x
  · simp [sumKey, List.filter_cons, h]
  · simp [sumKey, List.filter_cons, h]

theorem sumKey_eq_zero {α R : Type} [DecidableEq α] [AddCommMonoid R]
    {l : List (α × R)} {x : α} (h : ∀ p ∈ l, ¬ p.1 = x) : sumKey l x = 0 := by
  induction l with
  | nil => rfl
  | cons hd tl ih =>
    rw [sumKey_cons, if_neg (h hd (by simp)), zero_add]
    exact ih (fun p hp => h p (by simp [hp]))

theorem sumKey_perm {α R : Type} [DecidableEq α] [AddCommMonoid R]
    {l₁ l₂ : List (α × R)} (h : l₁.Perm l₂) (x : α) : sumKey l₁ x = sumKey l₂ x :=
  ((h.filter _).map Prod.snd).sum_eq

theorem fold_adjacent_spec {α R : Type} [LinearOrder α] [AddCommMonoid R] [DecidableEq R]
    (p : α × R) (l : List (α × R))
    (hs : (p :: l).Pairwise (fun u w : α × R => u.1 ≤ w.1)) :
    ((fold_adjacent p l).filter (fun q => decide (¬ q.2 = 0))).Pairwise
        (fun u w : α × R => u.1 < w.1)
    ∧ (∀ q ∈ (fold_adjacent p l).filter (fun q => decide (¬ q.2 = 0)),
        q.2 = sumKey (p :: l) q.1 ∧ ¬ q.2 = 0)
    ∧ (∀ x : α, ¬ sumKey (p :: l) x = 0 →
        ∃ q ∈ (fold_adjacent p l).filter (fun q => decide (¬ q.2 = 0)), q.1 = x) := by
  induction l generalizing p with
  | nil =>
    obtain ⟨a, r⟩ := p
    by_cases hr : r = 0
    · subst hr
      refine ⟨by simp [fold_adjacent], by simp [fold_adjacent], ?_⟩
      intro x hx
      exfalso
      apply hx
      rw [sumKey_cons, sumKey_nil, add_zero]
      split <;> rfl
    · refine ⟨by simp [fold_adjacent, hr], ?_, ?_⟩
      · intro q hq
        simp only [fold_adjacent, List.filter_cons, List.filter_nil] at hq
        rw [if_pos (by simp [hr])] at hq
        rcases List.mem_singleton.mp hq with hq'
        subst hq'
        refine ⟨?_, hr⟩
        rw [sumKey_cons, sumKey_nil, add_zero, if_pos rfl]
      · intro x hx
        have hax : a = x := by
          by_contra hne
          apply hx
          rw [sumKey_cons, sumKey_nil, add_zero, if_neg hne]
        subst hax
        refine ⟨(a, r), ?_, rfl⟩
        simp [fold_adjacent, hr]
  | cons hd tl ih =>
    obtain ⟨a, r⟩ := p
    obtain ⟨b, s⟩ := hd
    rw [List.pairwise_cons] at hs
    obtain ⟨hab, hs'⟩ := hs
    by_cases hba : b = a
    · subst hba
      have hs2 : ((b, s + r) :: tl).Pairwise (fun u w : α × R => u.1 ≤ w.1) := by
        rw [List.pairwise_cons] at hs' ⊢
        exact ⟨hs'.1, hs'.2⟩
      have key : ∀ x, sumKey ((b, r) :: (b, s) :: tl) x = sumKey ((b, s + r) :: tl) x := by
        intro x
        rw [sumKey_cons, sumKey_cons, sumKey_cons]
        by_cases hax : b = x
        · simp only [if_pos hax, ← add_assoc]
          rw [add_comm r s]
        · simp [if_neg hax]
      obtain ⟨ih1, ih2, ih3⟩ := ih (b, s + r) hs2
      have hfold : fold_adjacent (b, r) ((b, s) :: tl)
          = (b, (0 : R)) :: fold_adjacent (b, s + r) tl := by
        simp [fold_adjacent]
      rw [hfold]
      have hfilter : ((b, (0 : R)) :: fold_adjacent (b, s + r) tl).filter
            (fun q => decide (¬ q.2 = 0))
          = (fold_adjacent (b, s + r) tl).filter (fun q => decide (¬ q.2 = 0)) := by
        simp [List.filter_cons]
      rw [hfilter]
      refine ⟨ih1, ?_, ?_⟩
      · intro q hq
        obtain ⟨h1, h2⟩ := ih2 q hq
        refine ⟨?_, h2⟩
        rw [key q.1]
        exact h1
      · intro x hx
        rw [key x] at hx
        exact ih3 x hx
    · have haleb : a ≤ b := hab (b, s) (by simp)
      have haltb : a < b := lt_of_le_of_ne haleb (fun h => hba h.symm)
      obtain ⟨ih1, ih2, ih3⟩ := ih (b, s) hs'
      have hfold : fold_adjacent (a, r) ((b, s) :: tl)
          = (a, r) :: fold_adjacent (b, s) tl := by
        simp [fold_adjacent, hba]
      rw [hfold]
      have hkey : ∀ q ∈ (fold_adjacent (b, s) tl).filter (fun q => decide (¬ q.2 = 0)),
          a < q.1 := by
        intro q hq
        have hq' : q ∈ fold_adjacent (b, s) tl := List.mem_of_mem_filter hq
        have hmem : q.1 ∈ (fold_adjacent (b, s) tl).map Prod.fst :=
          List.mem_map_of_mem _ hq'
        rw [fold_adjacent_keys] at hmem
        rcases List.mem_cons.mp hmem with h | h
        · rw [h]
          exact haltb
        · obtain ⟨w, hw, hwq⟩ := List.mem_map.mp h
          have hbw : b ≤ w.1 := (List.pairwise_cons.mp hs').1 w hw
          exact lt_of_lt_of_le haltb (hwq ▸ hbw)
      have hnot : ∀ w ∈ (b, s) :: tl, ¬ w.1 = a := by
        intro w hw heq
        rcases List.mem_cons.mp hw with h | h
        · rw [h] at heq
          exact hba heq
        · have hbw : b ≤ w.1 := (List.pairwise_cons.mp hs').1 w h
          have : a < a := lt_of_lt_of_le haltb (heq ▸ hbw)
          exact lt_irrefl _ this
      have hsum0 : sumKey ((b, s) :: tl) a = 0 := sumKey_eq_zero hnot
      have hsumx : ∀ x, ¬ x = a →
          sumKey ((a, r) :: (b, s) :: tl) x = sumKey ((b, s) :: tl) x := by
        intro x hxa
        rw [sumKey_cons, if_neg (fun h => hxa h.symm), zero_add]
      have hsuma : sumKey ((a, r) :: (b, s) :: tl) a = r := by
        rw [sumKey_cons, if_pos rfl, hsum0, add_zero]
      rw [List.filter_cons]
      by_cases hr : r = 0
      · rw [if_neg (by simp [hr])]
        refine ⟨ih1, ?_, ?_⟩
        · intro q hq
          obtain ⟨h1, h2⟩ := ih2 q hq
          have hqa : ¬ q.1 = a := ne_of_gt (hkey q hq)
          refine ⟨?_, h2⟩
          rw [hsumx q.1 hqa]
          exact h1
        · intro x hx
          by_cases hxa : x = a
          · subst hxa
            rw [hsuma, hr] at hx
            exact absurd rfl hx
          · rw [hsumx x hxa] at hx
            exact ih3 x hx
      · rw [if_pos (by simp [hr])]
        refine ⟨?_, ?_, ?_⟩
        · rw [List.pairwise_cons]
          exact ⟨hkey, ih1⟩
        · intro q hq
          rcases List.mem_cons.mp hq with h | h
          · subst h
            exact ⟨hsuma.symm, hr⟩
          · obtain ⟨h1, h2⟩ := ih2 q h
            have hqa : ¬ q.1 = a := ne_of_gt (hkey q h)
            refine ⟨?_, h2⟩
            rw [hsumx q.1 hqa]
            exact h1
        · intro x hx
          by_cases hxa : x = a
          · subst hxa
            refine ⟨(x, r), List.mem_cons_self _ _, rfl⟩
          · rw [hsumx x hxa] at hx
            obtain ⟨q, hq, hq1⟩ := ih3 x hx
            exact ⟨q, List.mem_cons_of_mem _ hq, hq1⟩

theorem fold_adj_spec {α R : Type} [LinearOrder α] [AddCommMonoid R] [DecidableEq R]
    (l : List (α × R)) (hs : l.Pairwise (fun u w : α × R => u.1 ≤ w.1)) :
    ((fold_adj l).filter (fun q => decide (¬ q.2 = 0))).Pairwise
        (fun u w : α × R => u.1 < w.1)
    ∧ (∀ q ∈ (fold_adj l).filter (fun q => decide (¬ q.2 = 0)),
        q.2 = sumKey l q.1 ∧ ¬ q.2 = 0)
    ∧ (∀ x : α, ¬ sumKey l x = 0 →
        ∃ q ∈ (fold_adj l).filter (fun q => decide (¬ q.2 = 0)), q.1 = x) := by
  match l with
  | [] =>
    refine ⟨by simp [fold_adj], by simp [fold_adj], ?_⟩
    intro x hx
    exact absurd (sumKey_nil x) hx
  | p :: rest => exact fold_adjacent_spec p rest hs

theorem consolidate_drop {α R : Type} [LinearOrder α] [AddCommMonoid R] [DecidableEq R]
    (vec : List (α × R)) (off : Nat) (hoff : off ≤ vec.length) :
    (consolidate vec off).drop off
      = (fold_adj (List.insertionSort (leCmp R compare) (vec.drop off))).filter
          (fun p => decide (¬ p.2 = 0)) := by
  have hlen : (vec.take off).length = off := by
    rw [List.length_take]
    omega
  unfold consolidate consolidate_by
  have h := List.drop_left (vec.take off)
    ((fold_adj (List.insertionSort (leCmp R compare) (vec.drop off))).filter
      (fun p => decide (¬ p.2 = 0)))
  rw [hlen] at h
  exact h

theorem consolidate_spec {α R : Type} [LinearOrder α] [AddCommMonoid R] [DecidableEq R]
    (vec : List (α × R)) (off : Nat) (hoff : off ≤ vec.length) :
    ((consolidate vec off).drop off).Pairwise (fun u w : α × R => u.1 < w.1)
    ∧ (∀ q ∈ (consolidate vec off).drop off,
        q.2 = sumKey (vec.drop off) q.1 ∧ ¬ q.2 = 0)
    ∧ (∀ x : α, ¬ sumKey (vec.drop off) x = 0 →
        ∃ q ∈ (consolidate vec off).drop off, q.1 = x) := by
  rw [consolidate_drop vec off hoff]
  have hperm : (List.insertionSort (leCmp R compare) (vec.drop off)).Perm (vec.drop off) :=
    List.perm_insertionSort _ _
  have hsorted : (List.insertionSort (leCmp R compare) (vec.drop off)).Pairwise
      (fun u w : α × R => u.1 ≤ w.1) :=
    List.Pairwise.imp (fun h => compare_isLE_iff.mp h)
      (List.sorted_insertionSort (leCmp R compare) (vec.drop off))
  obtain ⟨h1, h2, h3⟩ := fold_adj_spec (List.insertionSort (leCmp R compare) (vec.drop off)) hsorted
  refine ⟨h1, ?_, ?_⟩
  · intro q hq
    obtain ⟨hq1, hq2⟩ := h2 q hq
    exact ⟨hq1.trans (sumKey_perm hperm q.1), hq2⟩
  · intro x hx
    refine h3 x ?_
    rw [sumKey_perm hperm x]
    exact hx

/-- C1: for every vector of (item, diff) pairs and offset `off` (with
`vec[off..]` in bounds, as the slice expression presupposes), `consolidate`
rewrites `vec[off..]` into canonical form: sorted by item identity with
strictly increasing items (hence one entry per distinct item), each surviving
entry holding the sum of that item's diffs over the suffix, and every item
whose summed diff is zero removed; and on the concrete input
`[(a,3),(b,-2),(a,-3),(a,5)]` with `off = 0` (for items `a = 0 < b = 1`) it
yields exactly `[(a,5),(b,-2)]`. -/
theorem consolidate_canonical :
    (∀ (α R : Type) [LinearOrder α] [AddCommMonoid R] [DecidableEq R]
        (vec : List (α × R)) (off : Nat), off ≤ vec.length →
      ((consolidate vec off).drop off).Pairwise (fun u w : α × R => u.1 < w.1)
      ∧ (∀ q ∈ (consolidate vec off).drop off,
          q.2 = sumKey (vec.drop off) q.1 ∧ ¬ q.2 = 0)
      ∧ (∀ x : α, ¬ sumKey (vec.drop off) x = 0 →
          ∃ q ∈ (consolidate vec off).drop off, q.1 = x))
    ∧ consolidate [((0 : Nat), (3 : Int)), (1, -2), (0, -3), (0, 5)] 0 = [(0, 5), (1, -2)] :=
  ⟨fun α R _ _ _ vec off h => consolidate_spec vec off h, by decide⟩

/-- C1 witness: the canonical-form theorem applied at the concrete input
`[(0,2),(0,-1)]` with offset `0`. -/
theorem consolidate_canonical_witness :
    ((0 : Nat) ≤ ([((0 : Nat), (2 : Int)), (0, -1)] : List (Nat × Int)).length)
    ∧ ((consolidate [((0 : Nat), (2 : Int)), (0, -1)] 0).drop 0).Pairwise
        (fun u w : Nat × Int => u.1 < w.1) :=
  ⟨by decide, (consolidate_canonical.1 Nat Int [((0 : Nat), (2 : Int)), (0, -1)] 0 (by decide)).1⟩

/-- C10: for every vector, every offset `off ≤ vec.len()` and every comparison
function, `consolidate_by` leaves the prefix `vec[0..off]` element-wise
unchanged and returns a result of length at least `off`. -/
theorem consolidate_by_frame :
    ∀ (α R : Type) [DecidableEq α] [AddCommMonoid R] [DecidableEq R]
      (cmp : α → α → Ordering) (vec : List (α × R)) (off : Nat), off ≤ vec.length →
      (∀ i : Nat, i < off → (consolidate_by cmp vec off)[i]? = vec[i]?)
      ∧ off ≤ (consolidate_by cmp vec off).length := by
  intro α R _ _ _ cmp vec off hoff
  have hlen : (vec.take off).length = off := by
    rw [List.length_take]
    omega
  constructor
  · intro i hi
    unfold consolidate_by
    rw [List.getElem?_append, if_pos (by omega), List.getElem?_take, if_pos hi]
  · unfold consolidate_by
    rw [List.length_append, hlen]
    omega

/-- C10 witness: the frame theorem applied at a concrete vector with offset
`1`, showing the untouched zero-diff prefix entry. -/
theorem consolidate_by_frame_witness :
    (1 ≤ ([((5 : Nat), (0 : Int)), (1, 2), (1, -2)] : List (Nat × Int)).length)
    ∧ (consolidate_by compare [((5 : Nat), (0 : Int)), (1, 2), (1, -2)] 1)[0]?
        = ([((5 : Nat), (0 : Int)), (1, 2), (1, -2)] : List (Nat × Int))[0]? :=
  ⟨by decide,
   (consolidate_by_frame Nat Int compare [((5 : Nat), (0 : Int)), (1, 2), (1, -2)] 1
      (by decide)).1 0 (by decide)⟩

theorem charVal_digitChar {d : Nat} (h : d < 10) : charVal (digitChar d) = d := by
  interval_cases d <;> decide

theorem isDigitChar_digitChar {d : Nat} (h : d < 10) : isDigitChar (digitChar d) = true := by
  interval_cases d <;> decide

theorem isDigitChar_ne_dot {c : Char} (h : isDigitChar c = true) : ¬ c = '.' := by
  intro hc
  rw [hc] at h
  exact absurd h (by decide)

theorem digitsVal_append_singleton (l : List Char) (c : Char) :
    digitsVal (l ++ [c]) = 10 * digitsVal l + charVal c := by
  simp [digitsVal, List.foldl_append]

theorem natDigitsAux_spec : ∀ (fuel n : Nat), n < fuel →
    digitsVal (natDigitsAux fuel n) = n
    ∧ natDigitsAux fuel n ≠ []
    ∧ ∀ c ∈ natDigitsAux fuel n, isDigitChar c = true := by
  intro fuel
  induction fuel with
  | zero => intro n h; omega
  | succ fuel ih =>
    intro n h
    by_cases h10 : n < 10
    · refine ⟨?_, by simp [natDigitsAux, h10], ?_⟩
      · simp only [natDigitsAux, if_pos h10, digitsVal, List.foldl_cons, List.foldl_nil]
        rw [charVal_digitChar h10]
        omega
      · intro c hc
        simp only [natDigitsAux, if_pos h10, List.mem_singleton] at hc
        rw [hc]
        exact isDigitChar_digitChar h10
    · have hlt : n / 10 < fuel := by omega
      obtain ⟨ih1, ih2, ih3⟩ := ih (n / 10) hlt
      refine ⟨?_, by simp [natDigitsAux, h10], ?_⟩
      · simp only [natDigitsAux, if_neg h10]
        rw [digitsVal_append_singleton, ih1, charVal_digitChar (by omega)]
        omega
      · intro c hc
        simp only [natDigitsAux, if_neg h10, List.mem_append, List.mem_singleton] at hc
        rcases hc with hc | hc
        · exact ih3 c hc
        · rw [hc]
          exact isDigitChar_digitChar (by omega)

theorem natDigits_spec (n : Nat) :
    digitsVal (natDigits n) = n ∧ natDigits n ≠ []
    ∧ ∀ c ∈ natDigits n, isDigitChar c = true :=
  natDigitsAux_spec (n + 1) n (by omega)

theorem parseNat_natDigits (n : Nat) : parseNat (natDigits n) = some n := by
  obtain ⟨h1, h2, h3⟩ := natDigits_spec n
  unfold parseNat
  rw [if_neg (by simpa using h2), if_pos (List.all_eq_true.mpr h3), h1]

theorem splitOnDot_no_dot {cs : List Char} (h : ∀ c ∈ cs, ¬ c = '.') :
    splitOnDot cs = [cs] := by
  induction cs with
  | nil => rfl
  | cons c rest ih =>
    simp only [splitOnDot, if_neg (h c (List.mem_cons_self c rest)),
      ih (fun x hx => h x (List.mem_cons_of_mem c hx))]

theorem splitOnDot_append_dot {p : List Char} (rest : List Char) (h : ∀ c ∈ p, ¬ c = '.') :
    splitOnDot (p ++ '.' :: rest) = p :: splitOnDot rest := by
  induction p with
  | nil => simp [splitOnDot]
  | cons c p2 ih =>
    rw [List.cons_append]
    simp only [splitOnDot, if_neg (h c (List.mem_cons_self c p2)),
      ih (fun x hx => h x (List.mem_cons_of_mem c hx))]

theorem joinDot_concat (ps : List (List Char)) (q : List Char) (h : ps ≠ []) :
    joinDot (ps ++ [q]) = joinDot ps ++ '.' :: q := by
  induction ps with
  | nil => cases h rfl
  | cons p ps2 ih =>
    cases ps2 with
    | nil => simp [joinDot]
    | cons p2 ps3 =>
      have step : joinDot ((p :: p2 :: ps3) ++ [q]) = p ++ '.' :: joinDot ((p2 :: ps3) ++ [q]) := rfl
      rw [step, ih (by simp)]
      simp [joinDot, List.append_assoc]

theorem splitOnDot_joinDot (ps : List (List Char)) (hne : ps ≠ [])
    (h : ∀ p ∈ ps, ∀ c ∈ p, ¬ c = '.') :
    splitOnDot (joinDot ps) = ps := by
  induction ps with
  | nil => cases hne rfl
  | cons p ps2 ih =>
    cases ps2 with
    | nil => exact splitOnDot_no_dot (h p (List.mem_cons_self p []))
    | cons p2 ps3 =>
      have heq : joinDot (p :: p2 :: ps3) = p ++ '.' :: joinDot (p2 :: ps3) := rfl
      rw [heq, splitOnDot_append_dot _ (h p (List.mem_cons_self p _)),
        ih (by simp) (fun x hx c hc => h x (List.mem_cons_of_mem p hx) c hc)]

theorem parseAll_natDigits (l : List Nat) : parseAll (l.map natDigits) = some l := by
  induction l with
  | nil => rfl
  | cons x xs ih =>
    simp [parseAll, parseNat_natDigits, ih]

/-- C2 (amended): for every NONEMPTY operator address and every trace_id,
`BatchIdentifier::from_string` applied to `BatchIdentifier::to_string` returns
the identical identifier; concretely, address `[3,5,2]` with trace_id `12`
formats to `"3.5.2.12"` and parses back to the same structure.  (For the empty
address the claim fails: see the counterexample theorem.) -/
theorem batch_identifier_roundtrip_nonempty :
    (∀ (a : Nat) (as : List Nat) (tid : Nat),
      BatchIdentifier.from_string (BatchIdentifier.to_string ⟨a :: as, tid⟩)
        = some ⟨a :: as, tid⟩)
    ∧ BatchIdentifier.to_string ⟨[3, 5, 2], 12⟩ = ['3', '.', '5', '.', '2', '.', '1', '2']
    ∧ BatchIdentifier.from_string ['3', '.', '5', '.', '2', '.', '1', '2'] = some ⟨[3, 5, 2], 12⟩ := by
  refine ⟨?_, by decide, by decide⟩
  intro a as tid
  have hform : BatchIdentifier.to_string ⟨a :: as, tid⟩
      = joinDot (((a :: as).map natDigits) ++ [natDigits tid]) := by
    unfold BatchIdentifier.to_string
    rw [joinDot_concat _ _ (by simp)]
  have hpieces : ∀ p ∈ ((a :: as).map natDigits) ++ [natDigits tid], ∀ c ∈ p, ¬ c = '.' := by
    intro p hp c hc
    rcases List.mem_append.mp hp with hp | hp
    · obtain ⟨x, hx, hxp⟩ := List.mem_map.mp hp
      exact isDigitChar_ne_dot ((natDigits_spec x).2.2 c (hxp ▸ hc))
    · rw [List.mem_singleton] at hp
      exact isDigitChar_ne_dot ((natDigits_spec tid).2.2 c (hp ▸ hc))
  have hsplit : splitOnDot (BatchIdentifier.to_string ⟨a :: as, tid⟩)
      = ((a :: as).map natDigits) ++ [natDigits tid] := by
    rw [hform]
    exact splitOnDot_joinDot _ (by simp) hpieces
  unfold BatchIdentifier.from_string
  rw [hsplit, List.getLast?_concat, List.dropLast_concat]
  have hall := parseAll_natDigits (a :: as)
  rw [List.map_cons] at hall
  simp [parseNat_natDigits, hall]

/-- C2 counterexample: for the empty address the round trip does not return
the original identifier — `to_string ⟨[], 0⟩` is `".0"`, and `from_string`
panics (`none`) because the leading empty piece fails to parse as a number. -/
theorem batch_identifier_roundtrip_counterexample :
    ¬ BatchIdentifier.from_string (BatchIdentifier.to_string ⟨[], 0⟩) = some ⟨[], 0⟩ := by
  decide

theorem sweep_nil_queries {T V R : Type} [LinearOrder T] [LinearOrder V]
    [AddCommMonoid R] [DecidableEq R] (updates : List (T × V × R)) (w2 : List (V × R)) :
    (sweep updates [] w2).1 = [] := by
  induction updates generalizing w2 with
  | nil => rfl
  | cons hd rest ih =>
    obtain ⟨t, v, d⟩ := hd
    simp [sweep, ih]

theorem sweep_single {T V R : Type} [LinearOrder T] [LinearOrder V]
    [AddCommMonoid R] [DecidableEq R] (updates : List (T × V × R)) (qt : T) (w2 : List (V × R)) :
    (sweep updates [qt] w2).1
      = (consolidate (w2 ++ (updates.takeWhile (fun u => !decide (qt < u.1))).map
            (fun u => (u.2.1, u.2.2))) 0).map (fun p => (p.1, qt, p.2)) := by
  induction updates generalizing w2 with
  | nil => simp [sweep]
  | cons hd rest ih =>
    obtain ⟨t, v, d⟩ := hd
    by_cases h : qt < t
    · simp [sweep, h, sweep_nil_queries]
    · have e : List.takeWhile (fun x => decide (x < t)) [qt] = [] := by simp [h]
      have estep : sweep ((t, v, d) :: rest) [qt] w2 = sweep rest [qt] (w2 ++ [(v, d)]) := by
        rw [show sweep ((t, v, d) :: rest) [qt] w2
            = if (List.takeWhile (fun x => decide (x < t)) [qt]).isEmpty then
                sweep rest [qt] (w2 ++ [(v, d)])
              else
                let r := sweep rest (List.dropWhile (fun x => decide (x < t)) [qt])
                  (consolidate w2 0 ++ [(v, d)])
                (((List.takeWhile (fun x => decide (x < t)) [qt]).flatMap
                    (fun qt => (consolidate w2 0).map (fun p => (p.1, qt, p.2)))) ++ r.1,
                 r.2) from rfl]
        rw [e]
        simp
      rw [estep, ih (w2 ++ [(v, d)])]
      have e3 : List.takeWhile (fun u : T × V × R => !decide (qt < u.1)) ((t, v, d) :: rest)
          = (t, v, d) :: List.takeWhile (fun u : T × V × R => !decide (qt < u.1)) rest := by
        simp [List.takeWhile_cons, h]
      rw [e3]
      simp [List.append_assoc]

theorem takeWhile_time_eq_filter {T V R : Type} [LinearOrder T] (qt : T)
    (l : List (T × V × R)) (hs : l.Pairwise (fun u w => u.1 ≤ w.1)) :
    l.takeWhile (fun u => !decide (qt < u.1)) = l.filter (fun u => decide (u.1 ≤ qt)) := by
  induction l with
  | nil => rfl
  | cons hd tl ih =>
    rw [List.pairwise_cons] at hs
    by_cases h : hd.1 ≤ qt
    · have h1 : ¬ qt < hd.1 := not_lt.mpr h
      simp [List.takeWhile_cons, List.filter_cons, h, h1, ih hs.2]
    · have h1 : qt < hd.1 := not_le.mp h
      have hfil : List.filter (fun u : T × V × R => decide (u.1 ≤ qt)) tl = [] := by
        rw [List.filter_eq_nil_iff]
        intro u hu
        simpa using not_le.mpr (lt_of_lt_of_le h1 (hs.1 u hu))
      simp [List.takeWhile_cons, List.filter_cons, h, h1, hfil]

theorem lookup_fresh_single {T V R : Type} [LinearOrder T] [LinearOrder V]
    [AddCommMonoid R] [DecidableEq R] (updates : List (T × V × R)) (qt : T) :
    (∀ row ∈ (lookup_step updates [qt] []).1,
        row.2.1 = qt
        ∧ row.2.2 = sumKey ((updates.filter (fun u => decide (u.1 ≤ qt))).map
            (fun u => (u.2.1, u.2.2))) row.1
        ∧ ¬ row.2.2 = 0)
    ∧ (∀ v : V, ¬ sumKey ((updates.filter (fun u => decide (u.1 ≤ qt))).map
          (fun u => (u.2.1, u.2.2))) v = 0 →
        ∃ row ∈ (lookup_step updates [qt] []).1, row.1 = v)
    ∧ ((lookup_step updates [qt] []).1).Pairwise (fun x y => x.1 < y.1) := by
  have hsorted : (List.insertionSort (leCmp (V × R) compare) updates).Pairwise
      (fun u w : T × (V × R) => u.1 ≤ w.1) :=
    List.Pairwise.imp (fun h => compare_isLE_iff.mp h)
      (List.sorted_insertionSort (leCmp (V × R) compare) updates)
  have hperm : (List.insertionSort (leCmp (V × R) compare) updates).Perm updates :=
    List.perm_insertionSort _ _
  have hlk : (lookup_step updates [qt] []).1
      = (consolidate (((List.insertionSort (leCmp (V × R) compare) updates).filter
            (fun u => decide (u.1 ≤ qt))).map (fun u => (u.2.1, u.2.2))) 0).map
          (fun p => (p.1, qt, p.2)) := by
    unfold lookup_step
    rw [sweep_single, takeWhile_time_eq_filter _ _ hsorted]
    simp
  have hpermW : (((List.insertionSort (leCmp (V × R) compare) updates).filter
        (fun u => decide (u.1 ≤ qt))).map (fun u => (u.2.1, u.2.2))).Perm
      ((updates.filter (fun u => decide (u.1 ≤ qt))).map (fun u => (u.2.1, u.2.2))) :=
    (hperm.filter _).map _
  have hps := consolidate_spec
    ((((List.insertionSort (leCmp (V × R) compare) updates).filter
        (fun u => decide (u.1 ≤ qt))).map (fun u => (u.2.1, u.2.2))) : List (V × R)) 0
    (Nat.zero_le _)
  obtain ⟨hp1, hp2, hp3⟩ := hps
  simp only [List.drop_zero] at hp1 hp2 hp3
  rw [hlk]
  refine ⟨?_, ?_, ?_⟩
  · intro row hrow
    obtain ⟨p, hp, hfp⟩ := List.mem_map.mp hrow
    obtain ⟨hsum, hnz⟩ := hp2 p hp
    rw [← hfp]
    exact ⟨rfl, hsum.trans (sumKey_perm hpermW p.1), hnz⟩
  · intro v hv
    have hv2 : ¬ sumKey (((List.insertionSort (leCmp (V × R) compare) updates).filter
        (fun u => decide (u.1 ≤ qt))).map (fun u => (u.2.1, u.2.2))) v = 0 := by
      rw [sumKey_perm hpermW v]
      exact hv
    obtain ⟨q, hq, hq1⟩ := hp3 v hv2
    exact ⟨(q.1, qt, q.2), List.mem_map_of_mem _ hq, hq1⟩
  · exact List.Pairwise.map _ (fun a b hab => hab) hp1

/-- C3 (code bug): the lookup operator's accumulation buffer `working2`
(src/src/operators/arrange.rs line 471) is initialized once at operator
construction and never cleared — the sweep only consolidates it in place and
pushes onto it — so earlier answers leak into later ones, and the operator
does not output "exactly those rows whose accumulated diffs are non-zero".
With the claim's own scenario run as a stream — the trace holding
(x,t=1,+1),(y,t=2,+1) when the query (k1,t=2) is answered, plus (x,t=3,-1)
when (k1,t=3) is answered in a later scheduling step — the first step
answers (x,2,+1),(y,2,+1) as claimed but leaves [(x,1),(y,1)] in the buffer;
the second step then re-gathers the key's triples on top of that leftover and
emits (x,3,+1),(y,3,+2), while the claim requires — and the same step started
from a cleared buffer produces — exactly (y,3,+1).  Values are x = 0,
y = 1. -/
theorem lookup_working2_never_cleared :
    (lookup_step [((1 : Nat), (0 : Nat), (1 : Int)), (2, 1, 1)] [2] []).1
        = [(0, 2, 1), (1, 2, 1)]
    ∧ (lookup_step [((1 : Nat), (0 : Nat), (1 : Int)), (2, 1, 1)] [2] []).2
        = [(0, 1), (1, 1)]
    ∧ (lookup_step [((1 : Nat), (0 : Nat), (1 : Int)), (3, 0, -1), (2, 1, 1)] [3] []).1
        = [(1, 3, 1)]
    ∧ (lookup_step [((1 : Nat), (0 : Nat), (1 : Int)), (3, 0, -1), (2, 1, 1)] [3]
          (lookup_step [((1 : Nat), (0 : Nat), (1 : Int)), (2, 1, 1)] [2] []).2).1
        = [(0, 3, 1), (1, 3, 2)]
    ∧ ([(0, 3, 1), (1, 3, 2)] : List (Nat × Nat × Int)) ≠ [(1, 3, 1)] :=
  ⟨by decide, by decide, by decide, by decide, by decide⟩

theorem insert_none_iff {T : Type} [DecidableEq T] (tr : TraceModel T) (b : BatchM T) :
    tr.insert b = none ↔ ¬ b.lower = tr.upper := by
  unfold TraceModel.insert
  split_ifs with h <;> simp [h]

theorem insert_some {T : Type} [DecidableEq T] {tr tr2 : TraceModel T} {b : BatchM T}
    (h : tr.insert b = some tr2) :
    tr2.upper = b.upper ∧ b.lower = tr.upper ∧ tr2.batches = tr.batches ++ [b] := by
  unfold TraceModel.insert at h
  split_ifs at h with hc
  · cases h
    refine ⟨?_, hc, rfl⟩
    unfold TraceModel.upper
    simp

theorem insertAll_chain {T : Type} [DecidableEq T] :
    ∀ (bs : List (BatchM T)) (tr tr2 : TraceModel T), tr.insertAll bs = some tr2 →
      (∀ b1, bs[0]? = some b1 → b1.lower = tr.upper)
      ∧ (∀ (i : Nat) (b1 b2 : BatchM T), bs[i]? = some b1 → bs[i + 1]? = some b2 →
          b1.upper = b2.lower) := by
  intro bs
  induction bs with
  | nil =>
    intro tr tr2 _
    constructor
    · intro b1 hb1
      simp at hb1
    · intro i b1 b2 hb1 _
      simp at hb1
  | cons b rest ih =>
    intro tr tr2 h
    unfold TraceModel.insertAll at h
    rcases hins : tr.insert b with _ | tr1
    · rw [hins] at h
      cases h
    · rw [hins] at h
      obtain ⟨hup, hlow, _⟩ := insert_some hins
      obtain ⟨ihhead, ihchain⟩ := ih tr1 tr2 h
      constructor
      · intro b1 hb1
        rw [List.getElem?_cons_zero] at hb1
        cases hb1
        exact hlow
      · intro i b1 b2 hb1 hb2
        match i with
        | 0 =>
          rw [List.getElem?_cons_zero] at hb1
          cases hb1
          rw [List.getElem?_cons_succ] at hb2
          have := ihhead b2 hb2
          rw [this, hup]
        | j + 1 =>
          rw [List.getElem?_cons_succ] at hb1 hb2
          exact ihchain j b1 b2 hb1 hb2

/-- C6: `Trace::insert(batch)` requires `batch.lower()` to equal the trace's
current upper frontier and fails as a fatal invariant violation (`none`)
exactly when it does not; consequently any sequence of successful inserts
`b0..bn` satisfies `b_i.upper() == b_{i+1}.lower()` for all `i`. -/
theorem insert_contiguity :
    ∀ (T : Type) [DecidableEq T],
      (∀ (tr : TraceModel T) (b : BatchM T), tr.insert b = none ↔ ¬ b.lower = tr.upper)
      ∧ (∀ (bs : List (BatchM T)) (tr tr2 : TraceModel T), tr.insertAll bs = some tr2 →
          ∀ (i : Nat) (b1 b2 : BatchM T), bs[i]? = some b1 → bs[i + 1]? = some b2 →
            b1.upper = b2.lower) :=
  fun T _ =>
    ⟨fun tr b => insert_none_iff tr b,
     fun bs tr tr2 h i b1 b2 h1 h2 => (insertAll_chain bs tr tr2 h).2 i b1 b2 h1 h2⟩

/-- C6 witness: the contiguity theorem applied at concrete inputs — a
non-contiguous insert fails, and a successful two-batch insertion run
satisfies the chain condition. -/
theorem insert_contiguity_witness :
    (TraceModel.insert ⟨[0], []⟩ ⟨[1], [2]⟩ = (none : Option (TraceModel Nat)))
    ∧ (⟨[1], [2]⟩ : BatchM Nat).upper = (⟨[2], [3]⟩ : BatchM Nat).lower :=
  ⟨((insert_contiguity Nat).1 ⟨[0], []⟩ ⟨[1], [2]⟩).mpr (by decide),
   (insert_contiguity Nat).2 [⟨[0], [2]⟩, ⟨[2], [3]⟩]
     ⟨[0], []⟩ ⟨[0], [⟨[0], [2]⟩, ⟨[2], [3]⟩]⟩ (by decide) 0 ⟨[0], [2]⟩ ⟨[2], [3]⟩
     (by decide) (by decide)⟩

theorem seal_queue_mem {T : Type} (queues : List (Option (List (Event T)))) (e : Event T)
    (q : List (Event T)) (hq : some q ∈ queues) :
    some (q ++ [e]) ∈ (queues.map (fun q0 => q0.map (fun evts => evts ++ [e]))).filter
      (fun q0 => q0.isSome) := by
  apply List.mem_filter.mpr
  constructor
  · have := List.mem_map_of_mem (fun q0 : Option (List (Event T)) =>
      q0.map (fun evts => evts ++ [e])) hq
    simpa using this
  · rfl

theorem seal_queue_no_dead {T : Type} (queues : List (Option (List (Event T))))
    (e : Event T) :
    ¬ (none ∈ (queues.map (fun q0 => q0.map (fun evts => evts ++ [e]))).filter
        (fun q0 => q0.isSome)) := by
  intro h
  have := (List.mem_filter.mp h).2
  simp at this

/-- C4: `TraceWriter::seal(frontier, data)` pushes `(frontier, data)` onto
every listener queue that is still live, removes the dead weak queue
references, and on the trace side inserts the batch when data is present,
closes the trace when the frontier is empty and no data is present, and
otherwise leaves the trace unchanged (a dropped trace stays dropped).  The
hypothesis says the batch, if any, is contiguous, so that the modelled
`Trace::insert` does not abort. -/
theorem seal_publishes :
    ∀ (T : Type) [DecidableEq T] (w : WriterModel T) (frontier : List T)
      (data : Option (T × BatchM T)),
      (∀ tr t b, w.trace = some tr → data = some (t, b) → b.lower = tr.upper) →
      ∃ w2, w.seal frontier data = some w2
        ∧ (∀ q, some q ∈ w.queues → some (q ++ [(frontier, data)]) ∈ w2.queues)
        ∧ ¬ none ∈ w2.queues
        ∧ (∀ tr, w.trace = some tr →
            (∀ t b, data = some (t, b) →
              w2.trace = some { init := tr.init, batches := tr.batches ++ [b] })
            ∧ (data = none → frontier = [] → w2.trace = some tr.close)
            ∧ (data = none → ¬ frontier = [] → w2.trace = some tr))
        ∧ (w.trace = none → w2.trace = none) := by
  intro T _ w frontier data hcompat
  rcases hw : w.trace with _ | tr
  · refine ⟨⟨frontier,
      (w.queues.map (fun q0 => q0.map (fun evts => evts ++ [(frontier, data)]))).filter
        (fun q0 => q0.isSome),
      none⟩, ?_, ?_, ?_, ?_, ?_⟩
    · simp [WriterModel.seal, hw]
    · intro q hq
      exact seal_queue_mem w.queues (frontier, data) q hq
    · exact seal_queue_no_dead w.queues (frontier, data)
    · intro tr htr
      simp at htr
    · intro _
      rfl
  · rcases hd : data with _ | ⟨t, b⟩
    · by_cases hf : frontier = []
      · refine ⟨⟨frontier,
          (w.queues.map (fun q0 => q0.map (fun evts =>
            evts ++ [(frontier, none)]))).filter (fun q0 => q0.isSome),
          some tr.close⟩, ?_, ?_, ?_, ?_, ?_⟩
        · simp [WriterModel.seal, hw, hd, hf]
        · intro q hq
          exact seal_queue_mem w.queues (frontier, none) q hq
        · exact seal_queue_no_dead w.queues (frontier, none)
        · intro tr2 htr2
          obtain rfl := Option.some.inj htr2
          refine ⟨?_, ?_, ?_⟩
          · intro t b hdb
            simp at hdb
          · intro _ _
            rfl
          · intro _ hf2
            exact absurd hf hf2
        · intro hn
          simp at hn
      · refine ⟨⟨frontier,
          (w.queues.map (fun q0 => q0.map (fun evts =>
            evts ++ [(frontier, none)]))).filter (fun q0 => q0.isSome),
          some tr⟩, ?_, ?_, ?_, ?_, ?_⟩
        · simp [WriterModel.seal, hw, hd, hf]
        · intro q hq
          exact seal_queue_mem w.queues (frontier, none) q hq
        · exact seal_queue_no_dead w.queues (frontier, none)
        · intro tr2 htr2
          obtain rfl := Option.some.inj htr2
          refine ⟨?_, ?_, ?_⟩
          · intro t b hdb
            simp at hdb
          · intro _ hf2
            exact absurd hf2 hf
          · intro _ _
            rfl
        · intro hn
          simp at hn
    · have hins : tr.insert b = some { init := tr.init, batches := tr.batches ++ [b] } := by
        unfold TraceModel.insert
        rw [if_pos (hcompat tr t b hw hd)]
      refine ⟨⟨frontier,
        (w.queues.map (fun q0 => q0.map (fun evts =>
          evts ++ [(frontier, some (t, b))]))).filter (fun q0 => q0.isSome),
        some ⟨tr.init, tr.batches ++ [b]⟩⟩, ?_, ?_, ?_, ?_, ?_⟩
      · simp [WriterModel.seal, hw, hd, hins]
      · intro q hq
        exact seal_queue_mem w.queues (frontier, some (t, b)) q hq
      · exact seal_queue_no_dead w.queues (frontier, some (t, b))
      · intro tr2 htr2
        obtain rfl := Option.some.inj htr2
        refine ⟨?_, ?_, ?_⟩
        · intro t2 b2 hdb
          simp only [Option.some.injEq, Prod.mk.injEq] at hdb
          obtain ⟨rfl, rfl⟩ := hdb
          rfl
        · intro hdn
          simp at hdn
        · intro hdn
          simp at hdn
      · intro hn
        simp at hn

/-- C4 witness: `seal` applied at a concrete writer state with a contiguous
batch succeeds. -/
theorem seal_publishes_witness :
    (WriterModel.seal (⟨[0], [some []], some ⟨[0], []⟩⟩ : WriterModel Nat) [1]
        (some (0, ⟨[0], [1]⟩))).isSome = true := by
  obtain ⟨w2, h, _⟩ := seal_publishes Nat ⟨[0], [some []], some ⟨[0], []⟩⟩ [1]
    (some (0, ⟨[0], [1]⟩))
    (by
      intro tr t b htr hdb
      obtain rfl := Option.some.inj htr
      simp only [Option.some.injEq, Prod.mk.injEq] at hdb
      obtain ⟨rfl, rfl⟩ := hdb
      rfl)
  rw [h]
  rfl

theorem filterMap_backlog {T : Type} (bs : List (BatchM T)) (t0 : T) :
    ((bs.map (fun b => (([t0], some (t0, b)) : Event T))).filterMap (fun e => e.2))
      = bs.map (fun b => (t0, b)) := by
  induction bs with
  | nil => rfl
  | cons b bs ih => simp [ih]

/-- C5: a queue returned by `new_listener` is pre-populated with exactly the
batches of the trace, each tagged with the minimum time `t0`, in trace order;
if the writer-side queue registry is gone (the trace is closed) the queue ends
with the terminal marker `([], none)`; and any events published afterwards
append after the backlog, so the backlog batches are drained before any
subsequently produced live batch. -/
theorem new_listener_backlog :
    ∀ (T : Type) (tr : TraceModel T) (queues : Option (List T × List (List (Event T)))) (t0 : T),
      ((TraceAgent.new_listener tr queues t0).1.filterMap (fun e => e.2))
          = tr.batches.map (fun b => (t0, b))
      ∧ (queues = none →
          (TraceAgent.new_listener tr queues t0).1.getLast? = some ([], none))
      ∧ (∀ es : List (Event T),
          (((TraceAgent.new_listener tr queues t0).1 ++ es).filterMap (fun e => e.2))
            = tr.batches.map (fun b => (t0, b)) ++ es.filterMap (fun e => e.2)) := by
  intro T tr queues t0
  have hmain : ((TraceAgent.new_listener tr queues t0).1.filterMap (fun e => e.2))
      = tr.batches.map (fun b => (t0, b)) := by
    rcases queues with _ | ⟨f, qs⟩
    · show ((tr.batches.map (fun b => (([t0], some (t0, b)) : Event T))
          ++ [(([], none) : Event T)]).filterMap (fun e => e.2)) = _
      rw [List.filterMap_append, filterMap_backlog]
      simp
    · show ((tr.batches.map (fun b => (([t0], some (t0, b)) : Event T))
          ++ [((f, none) : Event T)]).filterMap (fun e => e.2)) = _
      rw [List.filterMap_append, filterMap_backlog]
      simp
  refine ⟨hmain, ?_, ?_⟩
  · intro hq
    subst hq
    show (tr.batches.map (fun b => (([t0], some (t0, b)) : Event T))
        ++ [(([], none) : Event T)]).getLast? = some ([], none)
    rw [List.getLast?_concat]
  · intro es
    rw [List.filterMap_append, hmain]

/-- C5 witness: `new_listener` on a closed trace carries the terminal marker
last. -/
theorem new_listener_backlog_witness :
    (TraceAgent.new_listener (⟨[0], [⟨[0], [1]⟩]⟩ : TraceModel Nat) none 0).1.getLast?
      = some ([], none) :=
  (new_listener_backlog Nat ⟨[0], [⟨[0], [1]⟩]⟩ none 0).2.1 rfl

theorem recompute_spec {T : Type} [Preorder T] [DecidableRel (fun a b : T => a ≤ b)]
    (caps : List T) :
    ∀ frontier : List T,
      (recompute_capabilities caps frontier = none ↔
        ∃ time ∈ frontier, ∀ c ∈ caps, ¬ c ≤ time)
      ∧ (∀ res, recompute_capabilities caps frontier = some res → res = frontier) := by
  intro frontier
  induction frontier with
  | nil =>
    constructor
    · simp [recompute_capabilities]
    · intro res h
      simp only [recompute_capabilities, Option.some.injEq] at h
      exact h.symm
  | cons time rest ih =>
    rcases hfind : caps.find? (fun c => decide (c ≤ time)) with _ | c
    · have hall : ∀ c ∈ caps, ¬ c ≤ time := by
        intro c hc
        have := List.find?_eq_none.mp hfind c hc
        simpa using this
      constructor
      · simp only [recompute_capabilities, hfind]
        constructor
        · intro _
          exact ⟨time, List.mem_cons_self _ _, hall⟩
        · intro _
          trivial
      · intro res h
        simp only [recompute_capabilities, hfind] at h
        cases h
    · have hc1 : c ≤ time := by
        have := List.find?_some hfind
        simpa using this
      have hcmem : c ∈ caps := List.mem_of_find?_eq_some hfind
      constructor
      · simp only [recompute_capabilities, hfind]
        rw [Option.map_eq_none', ih.1]
        constructor
        · rintro ⟨t, ht, hallt⟩
          exact ⟨t, List.mem_cons_of_mem _ ht, hallt⟩
        · rintro ⟨t, ht, hallt⟩
          rcases List.mem_cons.mp ht with rfl | ht2
          · exact absurd hc1 (hallt c hcmem)
          · exact ⟨t, ht2, hallt⟩
      · intro res h
        simp only [recompute_capabilities, hfind] at h
        rcases hrec : recompute_capabilities caps rest with _ | res2
        · rw [hrec] at h
          cases h
        · rw [hrec, Option.map_some'] at h
          obtain rfl := Option.some.inj h
          rw [ih.2 res2 hrec]

/-- C7: both the arrange operator's per-step capability recomputation and
the import source's per-event processing abort fatally (`none`) exactly when
some
required time (the emitted batch's time, or an element of the new frontier)
is not covered by any currently held capability; on success the capability
set is exactly the required frontier — nothing is silently dropped or
fabricated. -/
theorem capability_recompute_fatal :
    ∀ (T : Type) [Preorder T] [DecidableRel (fun a b : T => a ≤ b)] (caps frontier : List T),
      ((recompute_capabilities caps frontier = none ↔
          ∃ time ∈ frontier, ∀ c ∈ caps, ¬ c ≤ time)
        ∧ (∀ res, recompute_capabilities caps frontier = some res → res = frontier))
      ∧ (∀ sent : Option (T × BatchM T),
          (source_step caps frontier sent = none ↔
            (∃ time batch, sent = some (time, batch) ∧ ∀ c ∈ caps, ¬ c ≤ time)
            ∨ ∃ time ∈ frontier, ∀ c ∈ caps, ¬ c ≤ time)
          ∧ (∀ out caps2, source_step caps frontier sent = some (out, caps2) →
              caps2 = frontier)) := by
  intro T _ _ caps frontier
  refine ⟨recompute_spec caps frontier, ?_⟩
  intro sent
  rcases sent with _ | ⟨time, batch⟩
  · constructor
    · simp only [source_step]
      rw [Option.map_eq_none', (recompute_spec caps frontier).1]
      constructor
      · intro h
        exact Or.inr h
      · rintro (⟨t, b, hsb, _⟩ | h)
        · cases hsb
        · exact h
    · intro out caps2 h
      simp only [source_step] at h
      rcases hrec : recompute_capabilities caps frontier with _ | res
      · rw [hrec] at h
        cases h
      · rw [hrec, Option.map_some'] at h
        have h2 := Option.some.inj h
        simp only [Prod.mk.injEq] at h2
        obtain ⟨rfl, rfl⟩ := h2
        exact (recompute_spec caps frontier).2 res hrec
  · rcases hfind : caps.find? (fun c => decide (c ≤ time)) with _ | c
    · have hall : ∀ c ∈ caps, ¬ c ≤ time := by
        intro c hc
        have := List.find?_eq_none.mp hfind c hc
        simpa using this
      constructor
      · simp only [source_step, hfind]
        constructor
        · intro _
          exact Or.inl ⟨time, batch, rfl, hall⟩
        · intro _
          trivial
      · intro out caps2 h
        simp only [source_step, hfind] at h
        cases h
    · have hc1 : c ≤ time := by
        have := List.find?_some hfind
        simpa using this
      have hcmem : c ∈ caps := List.mem_of_find?_eq_some hfind
      constructor
      · simp only [source_step, hfind]
        rw [Option.map_eq_none', (recompute_spec caps frontier).1]
        constructor
        · intro h
          exact Or.inr h
        · rintro (⟨t, b, hsb, hallt⟩ | h)
          · simp only [Option.some.injEq, Prod.mk.injEq] at hsb
            obtain ⟨rfl, rfl⟩ := hsb
            exact absurd hc1 (hallt c hcmem)
          · exact h
      · intro out caps2 h
        simp only [source_step, hfind] at h
        rcases hrec : recompute_capabilities caps frontier with _ | res
        · rw [hrec] at h
          cases h
        · rw [hrec, Option.map_some'] at h
          have h2 := Option.some.inj h
          simp only [Prod.mk.injEq] at h2
          obtain ⟨rfl, rfl⟩ := h2
          exact (recompute_spec caps frontier).2 res hrec

/-- C7 witness: with held capability time 10 and required frontier time 5,
both recomputations abort. -/
theorem capability_recompute_fatal_witness :
    recompute_capabilities ([10] : List Nat) [5] = none
    ∧ source_step ([10] : List Nat) [5] none = none :=
  ⟨((capability_recompute_fatal Nat [10] [5]).1.1).mpr ⟨5, by decide, by decide⟩,
   (((capability_recompute_fatal Nat [10] [5]).2 none).1).mpr
     (Or.inr ⟨5, by decide, by decide⟩)⟩

theorem dominates_refl {T : Type} [Preorder T] (f : List T) : dominates f f :=
  fun t ht => ⟨t, ht, le_refl t⟩

theorem dominates_trans {T : Type} [Preorder T] {f g h : List T}
    (h1 : dominates g f) (h2 : dominates h g) : dominates h f := by
  intro t ht
  obtain ⟨s, hs, hst⟩ := h2 t ht
  obtain ⟨u, hu, hus⟩ := h1 s hs
  exact ⟨u, hu, le_trans hus hst⟩

theorem monotone_run {T : Type} [Preorder T] :
    ∀ (fs : List (List T)) (a : AgentFrontiers T), monotoneCalls a fs →
      dominates (TraceAgent.advance_frontier (run_advances a fs))
        (TraceAgent.advance_frontier a) := by
  intro fs
  induction fs with
  | nil =>
    intro a _
    exact dominates_refl _
  | cons f fs ih =>
    intro a h
    obtain ⟨h1, h2⟩ := h
    have h3 := ih (TraceAgent.advance_by a f) h2
    rw [show run_advances a (f :: fs) = run_advances (TraceAgent.advance_by a f) fs from rfl]
    exact dominates_trans h1 h3

theorem monotoneCalls_append {T : Type} [Preorder T] :
    ∀ (fs1 fs2 : List (List T)) (a : AgentFrontiers T),
      monotoneCalls a (fs1 ++ fs2) → monotoneCalls (run_advances a fs1) fs2 := by
  intro fs1
  induction fs1 with
  | nil =>
    intro fs2 a h
    exact h
  | cons f fs ih =>
    intro fs2 a h
    obtain ⟨_, h2⟩ := h
    exact ih fs2 (TraceAgent.advance_by a f) h2

/-- C8 (amended): under the caller contract of `advance_by` (each call's
frontier dominates the frontier held just before it, §4.2 "monotonic
non-decreasing per caller"), the frontier reported by `advance_frontier`
never regresses: after any further calls, every time in the reported frontier
is greater or equal to some element of every previously reported frontier.
(Unconditionally the claim is false: the code stores the argument frontier
without any check; see the counterexample theorem.) -/
theorem advance_frontier_monotone :
    ∀ (T : Type) [Preorder T] (a : AgentFrontiers T) (fs1 fs2 : List (List T)),
      monotoneCalls a (fs1 ++ fs2) →
      dominates (TraceAgent.advance_frontier (run_advances a (fs1 ++ fs2)))
        (TraceAgent.advance_frontier (run_advances a fs1)) := by
  intro T _ a fs1 fs2 h
  have e : run_advances a (fs1 ++ fs2) = run_advances (run_advances a fs1) fs2 := by
    unfold run_advances
    rw [List.foldl_append]
  rw [e]
  exact monotone_run fs2 (run_advances a fs1) (monotoneCalls_append fs1 fs2 a h)

/-- C8 counterexample: `advance_by` performs no monotonicity check, so a
caller that passes `[5]` and then `[0]` observes a regressed frontier: the
reported `[0]` does not dominate the previously reported `[5]`. -/
theorem advance_frontier_counterexample :
    ¬ dominates
        (TraceAgent.advance_frontier
          (TraceAgent.advance_by (TraceAgent.advance_by (⟨[0]⟩ : AgentFrontiers Nat) [5]) [0]))
        (TraceAgent.advance_frontier (TraceAgent.advance_by (⟨[0]⟩ : AgentFrontiers Nat) [5])) := by
  intro h
  obtain ⟨s, hs, hle⟩ := h 0 (List.mem_singleton.mpr rfl)
  have hs2 : s ∈ [(5 : Nat)] := hs
  have h5 : s = 5 := List.mem_singleton.mp hs2
  omega

/-- C8 witness: the monotonicity theorem applied to the concrete call
sequence `[1]` then `[2]` from initial frontier `[0]`. -/
theorem advance_frontier_monotone_witness :
    dominates
      (TraceAgent.advance_frontier (run_advances (⟨[0]⟩ : AgentFrontiers Nat) ([[1]] ++ [[2]])))
      (TraceAgent.advance_frontier (run_advances (⟨[0]⟩ : AgentFrontiers Nat) [[1]])) :=
  advance_frontier_monotone Nat ⟨[0]⟩ [[1]] [[2]]
    ⟨fun t ht => ⟨0, List.mem_singleton.mpr rfl, by simp at ht; omega⟩,
     fun t ht => ⟨1, List.mem_singleton.mpr rfl, by simp at ht; omega⟩,
     trivial⟩

theorem run_map_times_cons {T R σ : Type} (p : T × R) (times : List (T × R))
    (logic : T → R → σ → σ) (st : σ) :
    run_map_times (p :: times) logic st = run_map_times times logic (logic p.1 p.2 st) := rfl

theorem run_map_times_filterMap {T R σ : Type} (func : T → Option T)
    (times : List (T × R)) (logic : T → R → σ → σ) (st : σ) :
    run_map_times times
        (fun time diff s =>
          match func time with
          | some time2 => logic time2 diff s
          | none => s) st
      = run_map_times (times.filterMap (fun p => (func p.1).map (fun t2 => (t2, p.2))))
          logic st := by
  induction times generalizing st with
  | nil => rfl
  | cons p rest ih =>
    obtain ⟨t, d⟩ := p
    rw [run_map_times_cons]
    rcases hf : func t with _ | t2
    · simp only [hf, List.filterMap_cons, Option.map_none']
      exact ih st
    · simp only [hf, List.filterMap_cons, Option.map_some']
      rw [run_map_times_cons]
      exact ih (logic t2 d st)

/-- C9: for a frozen cursor (both the trace-cursor and the batch-cursor
wrapper), `map_times` visits, for the current key and value, exactly the
`(time, diff)` pairs of the underlying cursor for which `func time` is
`Some`, each with its time replaced by the returned value and every `None`
pair suppressed — behaving exactly like an unfiltered visit of the
transformed pair list — and keys, values and diffs pass through unmodified. -/
theorem freeze_map_times_filters :
    ∀ (K V T R σ : Type) (c : CursorFreeze K V T R) (b : BatchCursorFreeze K V T R)
      (logic : T → R → σ → σ) (st : σ),
      c.map_times logic st
          = run_map_times (c.cursor.times.filterMap
              (fun p => (c.func p.1).map (fun t2 => (t2, p.2)))) logic st
      ∧ CursorFreeze.key c = c.cursor.key
      ∧ CursorFreeze.val c = c.cursor.val
      ∧ b.map_times logic st
          = run_map_times (b.cursor.times.filterMap
              (fun p => (b.func p.1).map (fun t2 => (t2, p.2)))) logic st
      ∧ BatchCursorFreeze.key b = b.cursor.key
      ∧ BatchCursorFreeze.val b = b.cursor.val :=
  fun K V T R σ c b logic st =>
    ⟨run_map_times_filterMap c.func c.cursor.times logic st, rfl, rfl,
     run_map_times_filterMap b.func b.cursor.times logic st, rfl, rfl⟩

end DD
